import Mathlib

/-!
Shallow embedding of the md2jsx conversion core (`src/lib.rs`) and proofs
about it.

The Rust crate consumes the event stream produced by the external
pulldown-cmark Markdown parser; that parser is an out-of-scope external
collaborator, so the embedding models the conversion core as a function
over an explicit list of events (the body of the `for event in parser`
loop of `parse`), together with the pure HTML-tag recognizer
`parse_html_tag`.

Modelling conventions:
* Rust `HashMap<String, serde_json::Value>` (only `String` and `Bool(true)`
  values ever occur) is modelled as an association list with unique keys,
  `insertProp` replacing the binding of an existing key in place, as
  `HashMap::insert` does.
* The two lazily built regexes `TAG_RE` and `ATTR_RE` are modelled by
  recursive scanners implementing their leftmost-first match semantics on
  the specific patterns (greedy character-class runs, ordered alternation
  of double-quoted / single-quoted / bare attribute values, non-overlapping
  iteration for `captures_iter`).
* Rust `str::trim` / the regex class `\s` use Unicode white space; the
  embedding uses `Char.isWhitespace`, which agrees on ASCII input.
* The builder stack (a Rust `Vec` with `push` / `pop` / `last_mut` at the
  back) is modelled as a list whose head is the top of the stack.
-/

namespace Md2Jsx

/-- The subset of `serde_json::Value` that the crate ever stores in `props`:
a string, or the boolean `true` used for bare flag attributes. -/
inductive PropValue where
  | str (s : String)
  | boolTrue
deriving DecidableEq

/-- The `props` map of an element: an association list with unique keys,
modelling `HashMap<String, serde_json::Value>`. -/
abbrev Props := List (String × PropValue)

/-- `HashMap::insert`: replace the binding of an existing key, otherwise add
a new binding. -/
def insertProp (m : Props) (k : String) (v : PropValue) : Props :=
  if m.any (fun p => p.1 == k) then
    m.map (fun p => if p.1 = k then (k, v) else p)
  else
    m ++ [(k, v)]

/-- `HashMap::get`: the value bound to a key, if any. -/
def lookupProp (m : Props) (k : String) : Option PropValue :=
  match m with
  | [] => none
  | p :: ps => if p.1 = k then some p.2 else lookupProp ps k

/-- The `Node` tagged union of `src/lib.rs`. -/
inductive Node where
  | element (tag : String) (props : Props) (children : List Node)
  | text (content : String)

mutual

def Node.decEq : (a b : Node) → Decidable (a = b)
  | .element t1 p1 c1, .element t2 p2 c2 =>
    if h1 : t1 = t2 then
      if h2 : p1 = p2 then
        match Node.decEqList c1 c2 with
        | isTrue h3 => isTrue (by rw [h1, h2, h3])
        | isFalse h3 => isFalse (by intro h; injection h; contradiction)
      else isFalse (by intro h; injection h; contradiction)
    else isFalse (by intro h; injection h; contradiction)
  | .element _ _ _, .text _ => isFalse (by intro h; exact Node.noConfusion h)
  | .text _, .element _ _ _ => isFalse (by intro h; exact Node.noConfusion h)
  | .text s1, .text s2 =>
    if h : s1 = s2 then isTrue (by rw [h]) else isFalse (by intro he; injection he; contradiction)

def Node.decEqList : (a b : List Node) → Decidable (a = b)
  | [], [] => isTrue rfl
  | [], _ :: _ => isFalse (by intro h; exact List.noConfusion h)
  | _ :: _, [] => isFalse (by intro h; exact List.noConfusion h)
  | a :: as, b :: bs =>
    match Node.decEq a b with
    | isTrue h1 =>
      match Node.decEqList as bs with
      | isTrue h2 => isTrue (by rw [h1, h2])
      | isFalse h2 => isFalse (by intro h; injection h; contradiction)
    | isFalse h1 => isFalse (by intro h; injection h; contradiction)

end

instance : DecidableEq Node := Node.decEq

/-- Discriminator for the `Element` variant. -/
def Node.isElement : Node → Bool
  | .element _ _ _ => true
  | .text _ => false

/-! ## The HTML tag recognizer (`parse_html_tag`) -/

/-- The character class `[a-zA-Z0-9-]` used both for tag names and for
attribute keys in `TAG_RE` / `ATTR_RE`. -/
def isTagNameChar (c : Char) : Bool :=
  ('a' ≤ c && c ≤ 'z') || ('A' ≤ c && c ≤ 'Z') || ('0' ≤ c && c ≤ '9') || c == '-'

/-- `str::trim` on a character list: drop leading and trailing whitespace. -/
def trimChars (cs : List Char) : List Char :=
  ((cs.dropWhile Char.isWhitespace).reverse.dropWhile Char.isWhitespace).reverse

/-- The third `ATTR_RE` value alternative `([^>\s]+)`: a nonempty bare token
of characters other than `>` and whitespace.  Returns the token and the
remaining input. -/
def bareToken (cs : List Char) : Option (String × List Char) :=
  let tok := cs.takeWhile (fun c => !(c == '>' || c.isWhitespace))
  if tok.isEmpty then none else some (String.mk tok, cs.drop tok.length)

/-- The `ATTR_RE` value alternation `(?:"([^"]*)"|'([^']*)'|([^>\s]+))`,
applied to the input immediately after `=`: try a double-quoted value, then
a single-quoted value, then a bare token (leftmost-first alternation; a
quoted alternative that finds no closing quote fails and falls through to
the bare token, which may then start with the quote character). -/
def parseAttrValue : List Char → Option (String × List Char)
  | [] => none
  | c :: cs =>
    if c == '"' then
      match cs.dropWhile (fun d => !(d == '"')) with
      | '"' :: rest => some (String.mk (cs.takeWhile (fun d => !(d == '"'))), rest)
      | _ => bareToken (c :: cs)
    else if c == '\'' then
      match cs.dropWhile (fun d => !(d == '\'')) with
      | '\'' :: rest => some (String.mk (cs.takeWhile (fun d => !(d == '\''))), rest)
      | _ => bareToken (c :: cs)
    else bareToken (c :: cs)

/-- The `ATTR_RE.captures_iter` loop of `parse_html_tag`: repeatedly find the
next `([a-zA-Z0-9-]+)(?:=value)?` match and insert the captured attribute
into the accumulated map (an attribute with no value is recorded as boolean
`true`; when `=` is not followed by a valid value the optional group matches
empty and scanning resumes at the `=`).  Every step consumes at least one
input character, so fuel equal to the input length makes the scan total. -/
def parseAttrsGo : Nat → List Char → Props → Props
  | _, [], acc => acc
  | 0, _ :: _, acc => acc
  | fuel + 1, c :: cs, acc =>
    if isTagNameChar c then
      let keyTail := cs.takeWhile isTagNameChar
      let key := String.mk (c :: keyTail)
      let rest := cs.drop keyTail.length
      match rest with
      | '=' :: rest2 =>
        match parseAttrValue rest2 with
        | some (v, rest3) => parseAttrsGo fuel rest3 (insertProp acc key (.str v))
        | none => parseAttrsGo fuel rest (insertProp acc key .boolTrue)
      | _ => parseAttrsGo fuel rest (insertProp acc key .boolTrue)
    else
      parseAttrsGo fuel cs acc

/-- Attribute-region parsing: scan the region captured by `TAG_RE` group 2. -/
def parseAttrs (cs : List Char) : Props :=
  parseAttrsGo cs.length cs []

/-- The interior of a `TAG_RE` match (the characters between the tag name
and the final `>`): `interior.getLast? == some '/'` is the self-closing
flag `(/?)`, and the attribute region is the interior with that `/`
removed. -/
def tagReInterior (nameChars interior : List Char) : Option (String × Props × Bool) :=
  if interior.getLast? == some '/' then
    some (String.mk nameChars, parseAttrs interior.dropLast, true)
  else
    some (String.mk nameChars, parseAttrs interior, false)

/-- After the tag name: the remainder must end in `>` and contain no other
`>` (the interior class `[^>]` and the `$` anchor). -/
def tagReAfterName (nameChars afterName : List Char) : Option (String × Props × Bool) :=
  match afterName.getLast? with
  | some '>' =>
    if afterName.dropLast.any (fun c => c == '>') then none
    else tagReInterior nameChars afterName.dropLast
  | _ => none

/-- `TAG_RE = ^<([a-zA-Z0-9-]+)([^>]*?)(/?)>$` on the trimmed fragment:
`<`, a nonempty greedy name run, then the interior handled by
`tagReAfterName` / `tagReInterior`.  Because the interior class excludes
`>`, a match forces the final `>` to be the last character and forbids any
other `>`; because group 2 is lazy and group 3 greedy, a trailing `/` is
captured by group 3 (the self-closing flag). -/
def tagReMatch (h : List Char) : Option (String × Props × Bool) :=
  match h with
  | '<' :: rest =>
    if (rest.takeWhile isTagNameChar).isEmpty then none
    else tagReAfterName (rest.takeWhile isTagNameChar)
          (rest.drop (rest.takeWhile isTagNameChar).length)
  | _ => none

/-- `html.starts_with("</")` on a character list. -/
def startsClosing : List Char → Bool
  | a :: b :: _ => a == '<' && b == '/'
  | _ => false

/-- `parse_html_tag` of `src/lib.rs`: trim the fragment, try `TAG_RE`, then
fall back to the closing-tag check `starts_with("</") && ends_with(">")`,
whose result is the trimmed interior `html[2..len-1].trim()` with an empty
attribute map and self-closing flag `false`. -/
def parse_html_tag (html : String) : Option (String × Props × Bool) :=
  let h := trimChars html.data
  match tagReMatch h with
  | some r => some r
  | none =>
    if startsClosing h && h.getLast? == some '>' then
      some (String.mk (trimChars ((h.drop 2).dropLast)), [], false)
    else none

/-- `parse_html_tag` with its local binding inlined. -/
theorem parse_html_tag_eq (s : String) :
    parse_html_tag s =
      match tagReMatch (trimChars s.data) with
      | some r => some r
      | none =>
        if startsClosing (trimChars s.data) && ((trimChars s.data).getLast? == some '>') then
          some (String.mk (trimChars (((trimChars s.data).drop 2).dropLast)), [], false)
        else none := rfl

/-! ## The tree builder (`parse`) -/

/-- `pulldown_cmark::HeadingLevel` (`H1 = 1` … `H6 = 6`). -/
inductive HeadingLevel where
  | h1 | h2 | h3 | h4 | h5 | h6
deriving DecidableEq

/-- The `u32` value of a heading level (`level as u32`). -/
def HeadingLevel.val : HeadingLevel → Nat
  | .h1 => 1
  | .h2 => 2
  | .h3 => 3
  | .h4 => 4
  | .h5 => 5
  | .h6 => 6

/-- The `pulldown_cmark::Tag` payload of a start event, restricted to the
data the builder reads: the heading level, a link's destination URL, a
list's optional first number, a footnote definition's label.  The variants
`blockQuote`, `codeBlock`, `image` and `htmlBlock` stand for the remaining
upstream constructs, all handled by the builder's catch-all `_` arm. -/
inductive Tag where
  | heading (level : HeadingLevel)
  | paragraph
  | emphasis
  | strong
  | link (destUrl : String)
  | list (firstNumber : Option Nat)
  | item
  | table
  | tableHead
  | tableRow
  | tableCell
  | strikethrough
  | footnoteDefinition (label : String)
  | blockQuote
  | codeBlock
  | image (destUrl : String)
  | htmlBlock
deriving DecidableEq

/-- The `pulldown_cmark::Event`s consumed by the builder loop.  `Event::Html`
and `Event::InlineHtml` share one match arm in the source and are modelled
by the single constructor `html`; the `End(_)` payload is ignored by the
source and therefore omitted; `rule` stands for the event kinds handled by
the final `_ => {}` arm (e.g. `Rule`, `TaskListMarker`). -/
inductive Event where
  | start (tag : Tag)
  | endEv
  | text (content : String)
  | code (content : String)
  | footnoteReference (label : String)
  | html (fragment : String)
  | softBreak
  | hardBreak
  | rule
deriving DecidableEq

/-- The `Event::Start` match of `parse`: the static construct-to-element
mapping (tag name plus initial props). -/
def startNode : Tag → Node
  | .heading level => .element ("h" ++ toString level.val) [] []
  | .paragraph => .element "p" [] []
  | .emphasis => .element "em" [] []
  | .strong => .element "strong" [] []
  | .link destUrl => .element "a" [("href", .str destUrl)] []
  | .list firstNumber => .element (if firstNumber.isSome then "ol" else "ul") [] []
  | .item => .element "li" [] []
  | .table => .element "table" [] []
  | .tableHead => .element "thead" [] []
  | .tableRow => .element "tr" [] []
  | .tableCell => .element "td" [] []
  | .strikethrough => .element "del" [] []
  | .footnoteDefinition label =>
      .element "div"
        [("id", .str ("fn-" ++ label)), ("className", .str "footnote-definition")] []
  | _ => .element "div" [] []

/-- The element built for `Event::Code`. -/
def codeNode (content : String) : Node :=
  .element "code" [] [.text content]

/-- The compound unit built for `Event::FootnoteReference`. -/
def footnoteRefNode (label : String) : Node :=
  .element "sup" []
    [.element "a"
      [("href", .str ("#fn-" ++ label)), ("className", .str "footnote-ref")]
      [.text label]]

/-- The builder state: the open-node stack (head = top, i.e. the back of the
Rust `Vec`) and the accumulated root forest. -/
structure BState where
  stack : List Node
  root : List Node
deriving DecidableEq

/-- The placement rule repeated throughout `parse`: push to the root forest
when the stack is empty, otherwise append as last child of the stack top
(the `if let Node::Element` guard silently drops the node when the top is
not an element). -/
def place (st : BState) (n : Node) : BState :=
  match st.stack with
  | [] => ⟨[], st.root ++ [n]⟩
  | .element t p cs :: rest => ⟨.element t p (cs ++ [n]) :: rest, st.root⟩
  | .text s :: rest => ⟨.text s :: rest, st.root⟩

/-- The `Event::End` arm: pop the stack (no-op when empty) and place the
popped node. -/
def popPlace (st : BState) : BState :=
  match st.stack with
  | [] => st
  | top :: rest => place ⟨rest, st.root⟩ top

/-- One iteration of the `for event in parser` loop of `parse`. -/
def step (allowed : List String) (st : BState) : Event → BState
  | .start tag => ⟨startNode tag :: st.stack, st.root⟩
  | .endEv => popPlace st
  | .text s => place st (.text s)
  | .code s => place st (codeNode s)
  | .footnoteReference label => place st (footnoteRefNode label)
  | .html s =>
    match parse_html_tag s with
    | some (tagName, props, isSelfClosing) =>
      if allowed.contains tagName then
        if startsClosing s.data then popPlace st
        else if isSelfClosing then place st (.element tagName props [])
        else ⟨.element tagName props [] :: st.stack, st.root⟩
      else place st (.text s)
    | none => place st (.text s)
  | .softBreak =>
    match st.stack with
    | [] => st
    | _ :: _ => place st (.text "\n")
  | .hardBreak =>
    match st.stack with
    | [] => st
    | _ :: _ => place st (.text "\n")
  | .rule => st

/-- The whole event loop. -/
def run (allowed : List String) : List Event → BState → BState
  | [], st => st
  | e :: es, st => run allowed es (step allowed st e)

/-- `parse` of `src/lib.rs`, modelled over the event stream delivered by the
external Markdown parser: run the loop from an empty stack and empty forest
and return the root forest (the leftover stack is discarded). -/
def parse (allowed : List String) (events : List Event) : List Node :=
  (run allowed events ⟨[], []⟩).root

/-- Whether some element in the forest carries the given tag (the recursive
search of the crate's `find_node` test helper). -/
def hasTagF : List Node → String → Bool
  | [], _ => false
  | .element t _ cs :: rest, name => t == name || hasTagF cs name || hasTagF rest name
  | .text _ :: rest, name => hasTagF rest name

/-! ## Well-nested event sequences

A well-nested sequence is described by a forest of `SItem`s: a properly
paired start/end tree, or one of the self-contained events (plain text,
inline code, footnote reference). -/

/-- One item of a well-nested event forest. -/
inductive SItem where
  | tree (tag : Tag) (kids : List SItem)
  | leafText (content : String)
  | leafCode (content : String)
  | leafFootnote (label : String)

/-- The event sequence of a well-nested forest. -/
def flats : List SItem → List Event
  | [] => []
  | .tree tag kids :: rest => .start tag :: (flats kids ++ (.endEv :: flats rest))
  | .leafText s :: rest => .text s :: flats rest
  | .leafCode s :: rest => .code s :: flats rest
  | .leafFootnote l :: rest => .footnoteReference l :: flats rest

/-- Replace an element's children (identity on text nodes). -/
def withKids : Node → List Node → Node
  | .element t p _, ns => .element t p ns
  | .text s, _ => .text s

/-- The forest of nodes a well-nested forest denotes: each tree becomes the
element of its start tag with its children in document order. -/
def toNodes : List SItem → List Node
  | [] => []
  | .tree tag kids :: rest => withKids (startNode tag) (toNodes kids) :: toNodes rest
  | .leafText s :: rest => .text s :: toNodes rest
  | .leafCode s :: rest => codeNode s :: toNodes rest
  | .leafFootnote l :: rest => footnoteRefNode l :: toNodes rest

/-- Well-nested event sequences: every start event is matched by a later end
event, properly nested, possibly interleaved with self-contained events. -/
inductive Balanced : List Event → Prop where
  | nil : Balanced []
  | tree (tag : Tag) (inner rest : List Event) :
      Balanced inner → Balanced rest → Balanced (.start tag :: inner ++ .endEv :: rest)
  | text (s : String) (rest : List Event) : Balanced rest → Balanced (.text s :: rest)
  | code (s : String) (rest : List Event) : Balanced rest → Balanced (.code s :: rest)
  | fref (l : String) (rest : List Event) : Balanced rest → Balanced (.footnoteReference l :: rest)

/-- Fold the placement rule over a list of nodes. -/
def addAll (st : BState) (ns : List Node) : BState :=
  ns.foldl place st

/-! ## Helper lemmas about the builder -/

theorem run_append (A : List String) (l₁ l₂ : List Event) (st : BState) :
    run A (l₁ ++ l₂) st = run A l₂ (run A l₁ st) := by
  induction l₁ generalizing st with
  | nil => rfl
  | cons e es ih => exact ih (step A st e)

theorem addAll_elem_top : ∀ (ns : List Node) (t : String) (p : Props)
    (cs rest root : List Node),
    addAll ⟨.element t p cs :: rest, root⟩ ns = ⟨.element t p (cs ++ ns) :: rest, root⟩ := by
  intro ns
  induction ns with
  | nil => intro t p cs rest root; simp [addAll]
  | cons n ns ih =>
    intro t p cs rest root
    have h1 : addAll ⟨.element t p cs :: rest, root⟩ (n :: ns)
        = addAll ⟨.element t p (cs ++ [n]) :: rest, root⟩ ns := rfl
    rw [h1, ih]
    simp

theorem addAll_empty_stack : ∀ (ns root : List Node), addAll ⟨[], root⟩ ns = ⟨[], root ++ ns⟩ := by
  intro ns
  induction ns with
  | nil => intro root; simp [addAll]
  | cons n ns ih =>
    intro root
    have h1 : addAll ⟨[], root⟩ (n :: ns) = addAll ⟨[], root ++ [n]⟩ ns := rfl
    rw [h1, ih]
    simp

theorem startNode_shape (tag : Tag) : ∃ a p, startNode tag = .element a p [] := by
  cases tag <;> exact ⟨_, _, rfl⟩

/-- Processing the event sequence of a well-nested forest places exactly the
denoted nodes, one by one, into the current state. -/
theorem run_flats (A : List String) : ∀ (n : Nat) (ts : List SItem),
    (flats ts).length ≤ n → ∀ (evs : List Event) (st : BState),
    run A (flats ts ++ evs) st = run A evs (addAll st (toNodes ts)) := by
  intro n
  induction n with
  | zero =>
    intro ts h evs st
    cases ts with
    | nil => simp [flats, toNodes, addAll]
    | cons t rest => exfalso; cases t <;> simp [flats] at h
  | succ n ih =>
    intro ts h evs st
    cases ts with
    | nil => simp [flats, toNodes, addAll]
    | cons t rest =>
      cases t with
      | tree tag kids =>
        have hk : (flats kids).length ≤ n := by simp [flats] at h; omega
        have hr : (flats rest).length ≤ n := by simp [flats] at h; omega
        have hev : flats (SItem.tree tag kids :: rest) ++ evs
            = Event.start tag :: (flats kids ++ (Event.endEv :: (flats rest ++ evs))) := by
          simp [flats]
        obtain ⟨a, p, hsn⟩ := startNode_shape tag
        rw [hev]
        have h2 : run A (Event.start tag :: (flats kids ++ (Event.endEv :: (flats rest ++ evs)))) st
            = run A (flats kids ++ (Event.endEv :: (flats rest ++ evs)))
                ⟨startNode tag :: st.stack, st.root⟩ := rfl
        rw [h2, hsn, ih kids hk, addAll_elem_top]
        have h3 : run A (Event.endEv :: (flats rest ++ evs))
              ⟨.element a p ([] ++ toNodes kids) :: st.stack, st.root⟩
            = run A (flats rest ++ evs) (place st (.element a p (toNodes kids))) := by
          simp [run, step, popPlace]
        rw [h3, ih rest hr]
        have h4 : addAll (place st (.element a p (toNodes kids))) (toNodes rest)
            = addAll st (.element a p (toNodes kids) :: toNodes rest) := rfl
        rw [h4]
        have h5 : toNodes (SItem.tree tag kids :: rest)
            = .element a p (toNodes kids) :: toNodes rest := by
          simp [toNodes, hsn, withKids]
        rw [h5]
      | leafText s =>
        have hr : (flats rest).length ≤ n := by simp [flats] at h; omega
        have hev : flats (SItem.leafText s :: rest) ++ evs
            = Event.text s :: (flats rest ++ evs) := by simp [flats]
        rw [hev]
        have h2 : run A (Event.text s :: (flats rest ++ evs)) st
            = run A (flats rest ++ evs) (place st (.text s)) := rfl
        rw [h2, ih rest hr]
        have h3 : addAll (place st (.text s)) (toNodes rest)
            = addAll st (.text s :: toNodes rest) := rfl
        rw [h3]
        have h4 : toNodes (SItem.leafText s :: rest) = .text s :: toNodes rest := by
          simp [toNodes]
        rw [h4]
      | leafCode s =>
        have hr : (flats rest).length ≤ n := by simp [flats] at h; omega
        have hev : flats (SItem.leafCode s :: rest) ++ evs
            = Event.code s :: (flats rest ++ evs) := by simp [flats]
        rw [hev]
        have h2 : run A (Event.code s :: (flats rest ++ evs)) st
            = run A (flats rest ++ evs) (place st (codeNode s)) := rfl
        rw [h2, ih rest hr]
        have h3 : addAll (place st (codeNode s)) (toNodes rest)
            = addAll st (codeNode s :: toNodes rest) := rfl
        rw [h3]
        have h4 : toNodes (SItem.leafCode s :: rest) = codeNode s :: toNodes rest := by
          simp [toNodes]
        rw [h4]
      | leafFootnote l =>
        have hr : (flats rest).length ≤ n := by simp [flats] at h; omega
        have hev : flats (SItem.leafFootnote l :: rest) ++ evs
            = Event.footnoteReference l :: (flats rest ++ evs) := by simp [flats]
        rw [hev]
        have h2 : run A (Event.footnoteReference l :: (flats rest ++ evs)) st
            = run A (flats rest ++ evs) (place st (footnoteRefNode l)) := rfl
        rw [h2, ih rest hr]
        have h3 : addAll (place st (footnoteRefNode l)) (toNodes rest)
            = addAll st (footnoteRefNode l :: toNodes rest) := rfl
        rw [h3]
        have h4 : toNodes (SItem.leafFootnote l :: rest) = footnoteRefNode l :: toNodes rest := by
          simp [toNodes]
        rw [h4]

/-! ## Helper lemmas about the recognizer -/

theorem startsClosing_shape {l : List Char} (h : startsClosing l = true) :
    ∃ t, l = '<' :: '/' :: t := by
  cases l with
  | nil => simp [startsClosing] at h
  | cons a l1 =>
    cases l1 with
    | nil => simp [startsClosing] at h
    | cons b t =>
      simp only [startsClosing, Bool.and_eq_true, beq_iff_eq] at h
      exact ⟨t, by rw [h.1, h.2]⟩

theorem dropWhile_ws_append_closing (xs : List Char) :
    (xs ++ ['/', '<']).dropWhile Char.isWhitespace
      = xs.dropWhile Char.isWhitespace ++ ['/', '<'] := by
  have hs : Char.isWhitespace '/' = false := by decide
  induction xs with
  | nil => simp [List.dropWhile_cons, hs]
  | cons c cs ih =>
    by_cases h : Char.isWhitespace c <;> simp [List.dropWhile_cons, h, ih]

theorem trimChars_closing (t : List Char) :
    trimChars ('<' :: '/' :: t)
      = '<' :: '/' :: (t.reverse.dropWhile Char.isWhitespace).reverse := by
  have hlt : Char.isWhitespace '<' = false := by decide
  unfold trimChars
  have h1 : ('<' :: '/' :: t).dropWhile Char.isWhitespace = '<' :: '/' :: t := by
    simp [List.dropWhile_cons, hlt]
  rw [h1]
  have h2 : ('<' :: '/' :: t).reverse = t.reverse ++ ['/', '<'] := by simp
  rw [h2, dropWhile_ws_append_closing]
  simp

theorem tagReMatch_closing_none (t : List Char) : tagReMatch ('<' :: '/' :: t) = none := by
  have hs : isTagNameChar '/' = false := by decide
  simp [tagReMatch, List.takeWhile_cons, hs]

/-- A fragment the recognizer reports as self-closing cannot start with
`</`: the untrimmed and trimmed prefixes agree on the first two characters,
and the `TAG_RE` branch (the only source of a `true` flag) requires a name
character right after `<`. -/
theorem not_startsClosing_of_selfClosing {s : String} {n : String} {p : Props}
    (h : parse_html_tag s = some (n, p, true)) : startsClosing s.data = false := by
  by_cases hc : startsClosing s.data
  · exfalso
    obtain ⟨t, ht⟩ := startsClosing_shape hc
    rw [parse_html_tag_eq, ht, trimChars_closing, tagReMatch_closing_none] at h
    split at h
    · next r heq => exact Option.noConfusion heq
    · split at h
      · simp at h
      · exact Option.noConfusion h
  · simpa using hc

/-! ## Helper lemmas about the props map -/

/-- The key list of a props map. -/
def propKeys (m : Props) : List String := m.map Prod.fst

theorem lookup_map_replace (k : String) (v : PropValue) :
    ∀ m : Props, m.any (fun p => p.1 == k) = true →
    lookupProp (m.map (fun p => if p.1 = k then (k, v) else p)) k = some v := by
  intro m
  induction m with
  | nil => intro h; simp at h
  | cons p ps ih =>
    intro h
    by_cases hp : p.1 = k
    · simp [lookupProp, hp]
    · have hany : ps.any (fun q => q.1 == k) = true := by
        simpa [beq_iff_eq, hp] using h
      simp [lookupProp, hp, ih hany]

theorem lookup_append_self (k : String) (v : PropValue) :
    ∀ m : Props, m.any (fun p => p.1 == k) = false →
    lookupProp (m ++ [(k, v)]) k = some v := by
  intro m
  induction m with
  | nil => simp [lookupProp]
  | cons p ps ih =>
    intro h
    simp only [List.any_cons, Bool.or_eq_false_iff, beq_eq_false_iff_ne] at h
    simp [lookupProp, h.1, ih (by simpa [beq_eq_false_iff_ne] using h.2)]

/-- `HashMap::insert` semantics: after inserting, looking the key up yields
the inserted value (the last write wins). -/
theorem lookup_insertProp (m : Props) (k : String) (v : PropValue) :
    lookupProp (insertProp m k v) k = some v := by
  unfold insertProp
  cases hany : m.any (fun p => p.1 == k) with
  | true => rw [if_pos rfl]; exact lookup_map_replace k v m hany
  | false => rw [if_neg (by simp)]; exact lookup_append_self k v m hany

theorem propKeys_insertProp (m : Props) (k : String) (v : PropValue) :
    propKeys (insertProp m k v) = propKeys m ∨
    (propKeys (insertProp m k v) = propKeys m ++ [k] ∧ k ∉ propKeys m) := by
  unfold insertProp
  cases hany : m.any (fun p => p.1 == k) with
  | true =>
    left
    rw [if_pos rfl]
    simp only [propKeys, List.map_map]
    apply List.map_congr_left
    intro p _
    by_cases hp : p.1 = k
    · simp [hp]
    · simp [hp]
  | false =>
    right
    constructor
    · rw [if_neg (by simp)]; simp [propKeys]
    · intro hk
      simp only [propKeys, List.mem_map] at hk
      obtain ⟨p, hpm, hpk⟩ := hk
      have : m.any (fun p => p.1 == k) = true :=
        List.any_eq_true.mpr ⟨p, hpm, by simp [hpk]⟩
      rw [this] at hany
      exact Bool.noConfusion hany

theorem nodup_propKeys_insertProp {m : Props} (k : String) (v : PropValue)
    (h : (propKeys m).Nodup) : (propKeys (insertProp m k v)).Nodup := by
  rcases propKeys_insertProp m k v with heq | ⟨heq, hnm⟩
  · rw [heq]; exact h
  · rw [heq, List.nodup_append]
    exact ⟨h, List.nodup_singleton k,
      fun a ha hb => hnm (by rwa [List.mem_singleton.mp hb] at ha)⟩

theorem parseAttrsGo_nodupKeys : ∀ (fuel : Nat) (cs : List Char) (acc : Props),
    (propKeys acc).Nodup → (propKeys (parseAttrsGo fuel cs acc)).Nodup := by
  intro fuel
  induction fuel with
  | zero => intro cs acc h; cases cs <;> simpa [parseAttrsGo] using h
  | succ n ih =>
    intro cs acc h
    cases cs with
    | nil => simpa [parseAttrsGo] using h
    | cons c cs =>
      simp only [parseAttrsGo]
      split
      · split
        · split
          · exact ih _ _ (nodup_propKeys_insertProp _ _ h)
          · exact ih _ _ (nodup_propKeys_insertProp _ _ h)
        · exact ih _ _ (nodup_propKeys_insertProp _ _ h)
      · exact ih _ _ h

theorem tagReInterior_props {nameChars interior : List Char} {n : String} {p : Props}
    {sc : Bool} (h : tagReInterior nameChars interior = some (n, p, sc)) :
    ∃ cs, p = parseAttrs cs := by
  unfold tagReInterior at h
  split at h
  · injection h with h1
    exact ⟨_, (congrArg (fun q => q.2.1) h1).symm⟩
  · injection h with h1
    exact ⟨_, (congrArg (fun q => q.2.1) h1).symm⟩

theorem tagReMatch_props {h0 : List Char} {n : String} {p : Props} {sc : Bool}
    (h : tagReMatch h0 = some (n, p, sc)) : ∃ cs, p = parseAttrs cs := by
  unfold tagReMatch at h
  split at h
  · split at h
    · exact Option.noConfusion h
    · unfold tagReAfterName at h
      split at h
      · split at h
        · exact Option.noConfusion h
        · exact tagReInterior_props h
      · exact Option.noConfusion h
  · exact Option.noConfusion h

/-- The props map returned by the recognizer always has unique keys. -/
theorem parse_html_tag_nodupKeys {s : String} {n : String} {p : Props} {sc : Bool}
    (h : parse_html_tag s = some (n, p, sc)) : (propKeys p).Nodup := by
  rw [parse_html_tag_eq] at h
  split at h
  · next r heq =>
    obtain rfl : r = (n, p, sc) := by injection h
    obtain ⟨cs, hp⟩ := tagReMatch_props heq
    rw [hp]
    unfold parseAttrs
    exact parseAttrsGo_nodupKeys _ _ _ (by simp [propKeys])
  · split at h
    · injection h with h1
      have hp : p = [] := (congrArg (fun q => q.2.1) h1).symm
      rw [hp]
      simp [propKeys]
    · exact Option.noConfusion h

/-! ## Stack invariant lemmas -/

/-- Every node in the list is an `Element`. -/
def allElements (ns : List Node) : Prop := ∀ x ∈ ns, x.isElement = true

theorem startNode_isElement (tag : Tag) : (startNode tag).isElement = true := by
  cases tag <;> rfl

theorem allElements_place {st : BState} (n : Node) (h : allElements st.stack) :
    allElements (place st n).stack := by
  obtain ⟨stack, root⟩ := st
  cases stack with
  | nil => intro x hx; simp [place] at hx
  | cons top rest =>
    cases top with
    | element t p cs =>
      intro x hx
      simp only [place, List.mem_cons] at hx
      rcases hx with h1 | h2
      · rw [h1]; rfl
      · exact h x (List.mem_cons_of_mem _ h2)
    | text s => exact h

theorem allElements_popPlace {st : BState} (h : allElements st.stack) :
    allElements (popPlace st).stack := by
  obtain ⟨stack, root⟩ := st
  cases stack with
  | nil => exact h
  | cons top rest =>
    exact allElements_place top (fun x hx => h x (List.mem_cons_of_mem _ hx))

theorem allElements_step (A : List String) {st : BState} (e : Event)
    (h : allElements st.stack) : allElements (step A st e).stack := by
  cases e with
  | start tag =>
    intro x hx
    simp only [step, List.mem_cons] at hx
    rcases hx with h1 | h2
    · rw [h1]; exact startNode_isElement tag
    · exact h x h2
  | endEv => exact allElements_popPlace h
  | text s => exact allElements_place _ h
  | code s => exact allElements_place _ h
  | footnoteReference l => exact allElements_place _ h
  | html s =>
    simp only [step]
    split
    · split
      · split
        · exact allElements_popPlace h
        · split
          · exact allElements_place _ h
          · intro x hx
            simp only [List.mem_cons] at hx
            rcases hx with h1 | h2
            · rw [h1]; rfl
            · exact h x h2
      · exact allElements_place _ h
    · exact allElements_place _ h
  | softBreak =>
    simp only [step]
    split
    · exact h
    · exact allElements_place _ h
  | hardBreak =>
    simp only [step]
    split
    · exact h
    · exact allElements_place _ h
  | rule => exact h

theorem allElements_run (A : List String) (evs : List Event) :
    ∀ st : BState, allElements st.stack → allElements (run A evs st).stack := by
  induction evs with
  | nil => intro st h; exact h
  | cons e es ih => intro st h; exact ih _ (allElements_step A e h)

/-- Events that can neither pop the stack nor (when the stack is nonempty)
touch the root forest: everything except `End` and raw HTML. -/
def nonClosing : Event → Bool
  | .endEv => false
  | .html _ => false
  | _ => true

theorem place_nonempty {st : BState} (n : Node) (h : st.stack ≠ []) :
    (place st n).root = st.root ∧ (place st n).stack ≠ [] := by
  obtain ⟨stack, root⟩ := st
  cases stack with
  | nil => exact absurd rfl h
  | cons top rest => cases top <;> simp [place]

theorem run_nonClosing (A : List String) : ∀ (evs : List Event) (st : BState),
    (∀ e ∈ evs, nonClosing e = true) → st.stack ≠ [] →
    (run A evs st).root = st.root := by
  intro evs
  induction evs with
  | nil => intro st _ _; rfl
  | cons e es ih =>
    intro st h hne
    have he : nonClosing e = true := h e (List.mem_cons_self e es)
    have hes : ∀ x ∈ es, nonClosing x = true := fun x hx => h x (List.mem_cons_of_mem _ hx)
    have hstep : (step A st e).root = st.root ∧ (step A st e).stack ≠ [] := by
      cases e with
      | start tag => exact ⟨rfl, by simp [step]⟩
      | endEv => exact absurd he (by simp [nonClosing])
      | html s => exact absurd he (by simp [nonClosing])
      | text s => exact place_nonempty _ hne
      | code s => exact place_nonempty _ hne
      | footnoteReference l => exact place_nonempty _ hne
      | softBreak =>
        simp only [step]
        split
        · exact ⟨rfl, hne⟩
        · exact place_nonempty _ hne
      | hardBreak =>
        simp only [step]
        split
        · exact ⟨rfl, hne⟩
        · exact place_nonempty _ hne
      | rule => exact ⟨rfl, hne⟩
    have h1 : run A (e :: es) st = run A es (step A st e) := rfl
    rw [h1, ih (step A st e) hes hstep.2, hstep.1]

/-- Every well-nested event sequence is the flattening of some forest. -/
theorem balanced_exists {evs : List Event} (h : Balanced evs) : ∃ ts, evs = flats ts := by
  induction h with
  | nil => exact ⟨[], by simp [flats]⟩
  | tree tag inner rest hi hr ihi ihr =>
    obtain ⟨ks, rfl⟩ := ihi
    obtain ⟨ts, rfl⟩ := ihr
    exact ⟨.tree tag ks :: ts, by simp [flats]⟩
  | text s rest hr ih =>
    obtain ⟨ts, rfl⟩ := ih
    exact ⟨.leafText s :: ts, by simp [flats]⟩
  | code s rest hr ih =>
    obtain ⟨ts, rfl⟩ := ih
    exact ⟨.leafCode s :: ts, by simp [flats]⟩
  | fref l rest hr ih =>
    obtain ⟨ts, rfl⟩ := ih
    exact ⟨.leafFootnote l :: ts, by simp [flats]⟩

/-! ## Claims -/

/-- C1, counterexample: a raw-HTML closing tag whose name is NOT in the
allow-list does not pop the stack (the code appends the fragment as literal
text instead), contradicting the claim that the pop happens irrespective of
allow-list membership.  Here the allow-list is empty, the open element is a
`p`, and the fragment is `</div>`. -/
theorem C1_counterexample :
    step [] ⟨[Node.element "p" [] []], []⟩ (.html "</div>")
      ≠ popPlace ⟨[Node.element "p" [] []], []⟩ := by decide

/-- C1, amended: for a raw-HTML event whose fragment is recognized and whose
recognized tag name IS in the allow-list, if the untrimmed fragment starts
with `</` the builder pops the stack and places the popped node exactly as
for an end-of-construct event — irrespective of whether the closing tag's
name matches the element being closed (the state `st` is arbitrary).
Closing tags whose name is not in the allow-list are appended as literal
text instead (see the counterexample). -/
theorem C1_amended (A : List String) (st : BState) (s name : String)
    (props : Props) (sc : Bool)
    (h1 : parse_html_tag s = some (name, props, sc))
    (h2 : startsClosing s.data = true)
    (h3 : A.contains name = true) :
    step A st (.html s) = popPlace st := by
  have hmem : name ∈ A := by simpa using h3
  simp [step, h1, h2, hmem]

/-- C1, witness for the amended claim: `</div>` with `div` allowed pops an
open `span` element — the tag-name mismatch is not validated. -/
theorem C1_amended_witness :
    step ["div"] ⟨[Node.element "span" [] []], []⟩ (.html "</div>")
      = popPlace ⟨[Node.element "span" [] []], []⟩ :=
  C1_amended ["div"] ⟨[Node.element "span" [] []], []⟩ "</div>" "div" [] false
    (by decide) (by decide) (by decide)

/-- C2: a fragment recognized as self-closing with an allowed name is
appended as a complete `Element` with the extracted props and no children;
a recognized fragment with a disallowed name is appended as a `Text` node
holding the verbatim fragment.  Concretely, `<VideoPlayer src="x.mp4" />`
with allow-list `{VideoPlayer}` yields exactly the element and an empty
stack (no residue); with the empty allow-list it yields exactly the verbatim
text node, and no element tagged `VideoPlayer` occurs anywhere in that
output. -/
theorem C2_allowlist_gate :
    (∀ (A : List String) (st : BState) (s name : String) (props : Props),
        parse_html_tag s = some (name, props, true) → A.contains name = true →
        step A st (.html s) = place st (.element name props []))
    ∧ (∀ (A : List String) (st : BState) (s name : String) (props : Props) (sc : Bool),
        parse_html_tag s = some (name, props, sc) → A.contains name = false →
        step A st (.html s) = place st (.text s))
    ∧ parse_html_tag "<VideoPlayer src=\"x.mp4\" />"
        = some ("VideoPlayer", [("src", .str "x.mp4")], true)
    ∧ run ["VideoPlayer"] [.html "<VideoPlayer src=\"x.mp4\" />"] ⟨[], []⟩
        = ⟨[], [.element "VideoPlayer" [("src", .str "x.mp4")] []]⟩
    ∧ run [] [.html "<VideoPlayer src=\"x.mp4\" />"] ⟨[], []⟩
        = ⟨[], [.text "<VideoPlayer src=\"x.mp4\" />"]⟩
    ∧ hasTagF [.text "<VideoPlayer src=\"x.mp4\" />"] "VideoPlayer" = false := by
  refine ⟨?_, ?_, by decide, by decide, by decide, by simp [hasTagF]⟩
  · intro A st s name props h1 h2
    have hns := not_startsClosing_of_selfClosing h1
    have hmem : name ∈ A := by simpa using h2
    simp [step, h1, hns, hmem]
  · intro A st s name props sc h1 h2
    have hni : name ∉ A := by simpa using h2
    simp [step, h1, hni]

/-- C2, witness: both general branches applied at the concrete
`VideoPlayer` fragment. -/
theorem C2_witness :
    step ["VideoPlayer"] ⟨[], []⟩ (.html "<VideoPlayer src=\"x.mp4\" />")
      = place ⟨[], []⟩ (.element "VideoPlayer" [("src", PropValue.str "x.mp4")] [])
    ∧ step [] ⟨[], []⟩ (.html "<VideoPlayer src=\"x.mp4\" />")
      = place ⟨[], []⟩ (.text "<VideoPlayer src=\"x.mp4\" />") :=
  ⟨C2_allowlist_gate.1 ["VideoPlayer"] ⟨[], []⟩ "<VideoPlayer src=\"x.mp4\" />"
      "VideoPlayer" [("src", PropValue.str "x.mp4")] (by decide) (by decide),
   C2_allowlist_gate.2.1 [] ⟨[], []⟩ "<VideoPlayer src=\"x.mp4\" />"
      "VideoPlayer" [("src", PropValue.str "x.mp4")] true (by decide) (by decide)⟩

/-- C3: processing any well-nested event sequence terminates with an empty
open-node stack, and the root forest is exactly the denotation of the
sequence's forest: every element opened by a start event appears exactly
once, in document order, at the nesting depth implied by its start/end
pair. -/
theorem C3_wellNested (A : List String) (evs : List Event) (h : Balanced evs) :
    ∃ ts, evs = flats ts ∧ run A evs ⟨[], []⟩ = ⟨[], toNodes ts⟩ := by
  obtain ⟨ts, rfl⟩ := balanced_exists h
  refine ⟨ts, rfl, ?_⟩
  have h1 := run_flats A (flats ts).length ts le_rfl [] ⟨[], []⟩
  rw [List.append_nil] at h1
  rw [h1, addAll_empty_stack]
  simp [run]

/-- C3, witness: a paragraph containing a text event. -/
theorem C3_witness :
    Balanced [Event.start .paragraph, Event.text "hi", Event.endEv]
    ∧ ∃ ts, [Event.start .paragraph, Event.text "hi", Event.endEv] = flats ts
        ∧ run [] [Event.start .paragraph, Event.text "hi", Event.endEv] ⟨[], []⟩
            = ⟨[], toNodes ts⟩ := by
  have hb : Balanced [Event.start .paragraph, Event.text "hi", Event.endEv] := by
    have h1 := Balanced.tree Tag.paragraph [Event.text "hi"] []
      (Balanced.text "hi" [] Balanced.nil) Balanced.nil
    simpa using h1
  exact ⟨hb, C3_wellNested [] _ hb⟩

/-- C4: the builder tests the untrimmed fragment for the `</` prefix while
the recognizer trims first, so a whitespace-led closing tag whose name is
in the allow-list is pushed as a new open element with empty props instead
of popping the stack.  Concretely, `" </div>"` with `div` allowed and an
open `div` pushes a second `div` and differs from the pop the stack would
have taken. -/
theorem C4_whitespace_closing_pushes :
    (∀ (A : List String) (st : BState) (s name : String) (props : Props),
        parse_html_tag s = some (name, props, false) →
        startsClosing s.data = false → A.contains name = true →
        step A st (.html s) = ⟨.element name props [] :: st.stack, st.root⟩)
    ∧ parse_html_tag " </div>" = some ("div", [], false)
    ∧ step ["div"] ⟨[.element "div" [] []], []⟩ (.html " </div>")
        = ⟨[.element "div" [] [], .element "div" [] []], []⟩
    ∧ step ["div"] ⟨[.element "div" [] []], []⟩ (.html " </div>")
        ≠ popPlace ⟨[.element "div" [] []], []⟩ := by
  refine ⟨?_, by decide, by decide, by decide⟩
  intro A st s name props h1 h2 h3
  have hmem : name ∈ A := by simpa using h3
  simp [step, h1, h2, hmem]

/-- C4, witness: the general push statement at the concrete whitespace-led
fragment. -/
theorem C4_witness :
    step ["div"] ⟨[], []⟩ (.html " </div>") = ⟨[Node.element "div" [] []], []⟩ :=
  C4_whitespace_closing_pushes.1 ["div"] ⟨[], []⟩ " </div>" "div" []
    (by decide) (by decide) (by decide)

/-- C5: every props map produced by the recognizer has unique keys;
inserting a key always makes the lookup return the inserted value (so the
last occurrence of a duplicate attribute wins); and the attribute region
grammar accepts bare keys (boolean `true`), double-quoted, single-quoted
and bare unquoted values, with the last duplicate winning, as shown on a
concrete fragment exercising every form. -/
theorem C5_attributes :
    (∀ (s n : String) (p : Props) (sc : Bool),
        parse_html_tag s = some (n, p, sc) → (propKeys p).Nodup)
    ∧ (∀ (m : Props) (k : String) (v : PropValue),
        lookupProp (insertProp m k v) k = some v)
    ∧ parse_html_tag "<a q=\"dq\" s='sq' b=bare f x=1 x=2>"
        = some ("a", [("q", .str "dq"), ("s", .str "sq"), ("b", .str "bare"),
            ("f", .boolTrue), ("x", .str "2")], false) := by
  exact ⟨fun s n p sc h => parse_html_tag_nodupKeys h, lookup_insertProp, by decide⟩

/-- C5, witness: key uniqueness applied at a concrete recognized fragment. -/
theorem C5_witness :
    (propKeys [("src", PropValue.str "x.mp4")]).Nodup :=
  C5_attributes.1 "<VideoPlayer src=\"x.mp4\" />" "VideoPlayer"
    [("src", PropValue.str "x.mp4")] true (by decide)

/-- C6: when the event stream ends with a non-empty stack, the nodes left
on the stack — and all children accumulated inside them — are discarded:
after a well-nested prefix, an unmatched start event followed by any
non-closing events contributes nothing to the returned forest, which is
exactly the denotation of the well-nested prefix. -/
theorem C6_unbalanced_discarded (A : List String) (ts : List SItem) (t : Tag)
    (tail : List Event) (h : ∀ e ∈ tail, nonClosing e = true) :
    parse A (flats ts ++ Event.start t :: tail) = toNodes ts := by
  unfold parse
  rw [run_append]
  have h2 : run A (flats ts) ⟨[], []⟩ = ⟨[], toNodes ts⟩ := by
    have h1 := run_flats A (flats ts).length ts le_rfl [] ⟨[], []⟩
    rw [List.append_nil] at h1
    rw [h1, addAll_empty_stack]
    simp [run]
  rw [h2]
  show (run A tail (step A ⟨[], toNodes ts⟩ (.start t))).root = toNodes ts
  have h3 : step A ⟨[], toNodes ts⟩ (.start t) = ⟨[startNode t], toNodes ts⟩ := rfl
  rw [h3]
  exact run_nonClosing A tail ⟨[startNode t], toNodes ts⟩ h (by simp)

/-- C6, witness: a closed paragraph followed by an unclosed emphasis with a
text child — the emphasis and its text are lost, only the paragraph
survives. -/
theorem C6_witness :
    parse [] (flats [SItem.tree .paragraph []] ++ Event.start .emphasis :: [Event.text "lost"])
      = toNodes [SItem.tree .paragraph []] :=
  C6_unbalanced_discarded [] [SItem.tree .paragraph []] .emphasis [Event.text "lost"]
    (by decide)

/-- C7: the start-event-to-tag mapping is the total static function of the
spec: `h1`…`h6` for headings, `p`, `em`, `strong`, `a` with an `href` prop,
`ol`/`ul`, `li`, `table`, `thead`, `tr`, `td`, `del`, `div` with id and
class-marker props for footnote definitions, and `div` for every construct
not explicitly named; a start event always pushes exactly this node. -/
theorem C7_tag_mapping :
    (∀ l : HeadingLevel, startNode (.heading l) = .element ("h" ++ toString l.val) [] [])
    ∧ startNode .paragraph = .element "p" [] []
    ∧ startNode .emphasis = .element "em" [] []
    ∧ startNode .strong = .element "strong" [] []
    ∧ (∀ d : String, startNode (.link d) = .element "a" [("href", .str d)] [])
    ∧ (∀ n : Nat, startNode (.list (some n)) = .element "ol" [] [])
    ∧ startNode (.list none) = .element "ul" [] []
    ∧ startNode .item = .element "li" [] []
    ∧ startNode .table = .element "table" [] []
    ∧ startNode .tableHead = .element "thead" [] []
    ∧ startNode .tableRow = .element "tr" [] []
    ∧ startNode .tableCell = .element "td" [] []
    ∧ startNode .strikethrough = .element "del" [] []
    ∧ (∀ L : String, startNode (.footnoteDefinition L)
        = .element "div"
            [("id", .str ("fn-" ++ L)), ("className", .str "footnote-definition")] [])
    ∧ startNode .blockQuote = .element "div" [] []
    ∧ startNode .codeBlock = .element "div" [] []
    ∧ (∀ d : String, startNode (.image d) = .element "div" [] [])
    ∧ startNode .htmlBlock = .element "div" [] []
    ∧ (∀ (A : List String) (st : BState) (tg : Tag),
        step A st (.start tg) = ⟨startNode tg :: st.stack, st.root⟩) :=
  ⟨fun l => rfl, rfl, rfl, rfl, fun d => rfl, fun n => rfl, rfl, rfl, rfl, rfl, rfl, rfl,
   rfl, fun L => rfl, rfl, rfl, fun d => rfl, rfl, fun A st tg => rfl⟩

/-- C8: a footnote reference with label `L` is appended as the complete unit
`sup > a[href="#fn-"+L, className=footnote-ref] > Text(L)` (never pushed),
and a footnote definition start event pushes an open `div` with
`id="fn-"+L` and the `footnote-definition` class marker. -/
theorem C8_footnotes :
    (∀ (A : List String) (st : BState) (L : String),
        step A st (.footnoteReference L)
          = place st (.element "sup" []
              [.element "a"
                [("href", .str ("#fn-" ++ L)), ("className", .str "footnote-ref")]
                [.text L]]))
    ∧ (∀ (A : List String) (st : BState) (L : String),
        step A st (.start (.footnoteDefinition L))
          = ⟨.element "div"
              [("id", .str ("fn-" ++ L)), ("className", .str "footnote-definition")] []
              :: st.stack, st.root⟩) :=
  ⟨fun A st L => rfl, fun A st L => rfl⟩

/-- C9: every node ever on the open-node stack is an `Element` (the run
preserves the all-elements stack invariant from any state satisfying it,
hence from the initial empty stack at every prefix of the stream), and
appending a child to an element stack top really appends — nothing is
dropped. -/
theorem C9_stack_all_elements :
    (∀ (A : List String) (evs : List Event) (st : BState),
        (∀ x ∈ st.stack, x.isElement = true) →
        ∀ x ∈ (run A evs st).stack, x.isElement = true)
    ∧ (∀ (t : String) (p : Props) (cs rest root : List Node) (n : Node),
        place ⟨.element t p cs :: rest, root⟩ n
          = ⟨.element t p (cs ++ [n]) :: rest, root⟩) :=
  ⟨fun A evs st h => allElements_run A evs st h, fun t p cs rest root n => rfl⟩

/-- C9, witness: the invariant applied to a run that leaves an open
paragraph on the stack. -/
theorem C9_witness :
    Node.isElement (Node.element "p" [] []) = true :=
  C9_stack_all_elements.1 [] [Event.start .paragraph] ⟨[], []⟩
    (by simp) (Node.element "p" [] []) (by decide)

/-- C10: any trimmed fragment starting with `</` and ending with `>` is
reported as a closing tag whose name is the trimmed interior taken
verbatim (no identifier validation), with an empty attribute map and
self-closing flag `false` — so `</foo bar>` yields name `"foo bar"`,
`</>` yields the empty name, and the result is shaped exactly like that of
an attribute-less non-self-closing opening tag such as `<p>`. -/
theorem C10_closing_recognizer :
    (∀ (s : String) (rest : List Char),
        trimChars s.data = '<' :: '/' :: rest → rest.getLast? = some '>' →
        parse_html_tag s = some (String.mk (trimChars rest.dropLast), [], false))
    ∧ parse_html_tag "</foo bar>" = some ("foo bar", [], false)
    ∧ parse_html_tag "</>" = some ("", [], false)
    ∧ parse_html_tag "<p>" = some ("p", [], false) := by
  refine ⟨?_, by decide, by decide, by decide⟩
  intro s rest h1 h2
  have hne : rest ≠ [] := by intro hx; rw [hx] at h2; simp at h2
  obtain ⟨r, rest2, rfl⟩ : ∃ r rest2, rest = r :: rest2 := by
    cases rest with
    | nil => exact absurd rfl hne
    | cons a b => exact ⟨a, b, rfl⟩
  have hsc : startsClosing ('<' :: '/' :: r :: rest2) = true := by simp [startsClosing]
  have hgl : ('<' :: '/' :: r :: rest2).getLast? = some '>' := by
    rw [List.getLast?_cons_cons, List.getLast?_cons_cons]
    exact h2
  rw [parse_html_tag_eq, h1, tagReMatch_closing_none]
  simp [hsc, hgl]

/-- C10, witness: the general closing-tag statement at a concrete fragment
with inner whitespace. -/
theorem C10_witness :
    parse_html_tag "</ x >" = some ("x", [], false) :=
  C10_closing_recognizer.1 "</ x >" (" x >".data) (by decide) (by decide)

end Md2Jsx
